import Mathlib

set_option linter.unusedVariables false

namespace Pyjira

/-- A styled text fragment: prompt_toolkit's (style, text) pair, with the text
modelled as a list of characters. -/
structure Frag where
  style : String
  text : List Char
deriving DecidableEq

/-- The `Drawable` base class of `container.py`: a value that can render itself
to styled text fragments. -/
class Drawable (α : Type) where
  render : α → List Frag

/-- Model of `TreeElement` of `container.py`: a payload `value`, an ordered list of
`children` (default empty) and an `expanded` flag (default `False`). -/
inductive TreeElement (α : Type) : Type where
  | node (value : α) (children : List (TreeElement α)) (expanded : Bool)

def TreeElement.value {α} : TreeElement α → α
  | .node v _ _ => v

def TreeElement.children {α} : TreeElement α → List (TreeElement α)
  | .node _ cs _ => cs

def TreeElement.expanded {α} : TreeElement α → Bool
  | .node _ _ e => e

/-- Model of `TreeComponent._traverse_visible`: for each element yield `(level, e)` and,
when `e.expanded` is true, recurse into its children at `level + 1`. -/
def traverse_visible {α} : List (TreeElement α) → Nat → List (Nat × TreeElement α)
  | [], _ => []
  | .node v cs exp :: es, level =>
      (level, .node v cs exp) ::
        ((if exp then traverse_visible cs (level + 1) else []) ++ traverse_visible es level)

/-- Model of `TreeComponent._number_of_visible_elements`: the length of the list produced
by `_traverse_visible(self.values, 0)`. -/
def number_of_visible_elements {α} (values : List (TreeElement α)) : Nat :=
  (traverse_visible values 0).length

mutual
/-- Spec-side definition (§4.1 of the spec, for comparison with the code's
traversal): a node contributes `(depth, node)` followed, if and only if its
`expanded` flag is true, by the pre-order sequence of its children at
`depth + 1`; a collapsed node contributes exactly its own entry. -/
def node_visible_spec {α} : TreeElement α → Nat → List (Nat × TreeElement α)
  | .node v cs exp, depth =>
      (depth, .node v cs exp) :: (if exp then forest_visible_spec cs (depth + 1) else [])

/-- Spec-side definition: the depth-first pre-order of a forest is the
concatenation of the pre-orders of its roots, in order. -/
def forest_visible_spec {α} : List (TreeElement α) → Nat → List (Nat × TreeElement α)
  | [], _ => []
  | t :: ts, depth => node_visible_spec t depth ++ forest_visible_spec ts depth
end

/-- Induction principle for forests of tree elements (recursion into both the
children and the tail of the list). -/
def forest_ind {α} {motive : List (TreeElement α) → Prop}
    (nil : motive [])
    (cons : ∀ v cs exp es, motive cs → motive es → motive (.node v cs exp :: es)) :
    ∀ ls, motive ls
  | [] => nil
  | .node v cs exp :: es => cons v cs exp es (forest_ind nil cons cs) (forest_ind nil cons es)

/-- The state of `TreeComponent` (`container.py`): the configured bracket
characters and default style (class attributes, `""` in the base class), the
forest `values` and the selection index `_selected_index` (a Python `int`,
modelled as `Int`). -/
structure TreeComponent (α : Type) where
  open_character : String := ""
  close_character : String := ""
  default_style : String := ""
  values : List (TreeElement α)
  selected_index : Int

/-- Model of `TreeComponent.set_values`: replace the forest and reset the selection
index to 0. -/
def set_values {α} (s : TreeComponent α) (values : List (TreeElement α)) :
    TreeComponent α :=
  { s with values := values, selected_index := 0 }

/-- The loop of `TreeComponent._find_expanded_by_index`: walk the visible
entries counting from 0 and return the element whose position equals `i`;
falling off the end returns Python's implicit `None`. -/
def find_go {α} : List (Nat × TreeElement α) → Int → Int → Option (TreeElement α)
  | [], _, _ => none
  | (_, e) :: rest, i, idx => if i = idx then some e else find_go rest i (idx + 1)

/-- Model of `TreeComponent._find_expanded_by_index`. -/
def find_expanded_by_index {α} (values : List (TreeElement α)) (i : Int) :
    Option (TreeElement α) :=
  find_go (traverse_visible values 0) i 0

/-- Model of `TreeComponent.get_selected_element` (`None` modelled as `none`). -/
def get_selected_element {α} (s : TreeComponent α) : Option (TreeElement α) :=
  find_expanded_by_index s.values s.selected_index

/-- The `up` key binding: `self._selected_index = max(0, self._selected_index - 1)`. -/
def key_up {α} (s : TreeComponent α) : TreeComponent α :=
  { s with selected_index := max 0 (s.selected_index - 1) }

/-- The `down` key binding:
`self._selected_index = min(self._number_of_visible_elements() - 1, self._selected_index + 1)`. -/
def key_down {α} (s : TreeComponent α) : TreeComponent α :=
  { s with selected_index := min ((number_of_visible_elements s.values : Int) - 1) (s.selected_index + 1) }

/-- The `pageup` key binding with `len(w.render_info.displayed_lines) = k`
(the binding does nothing when `render_info` is absent). -/
def key_pageup {α} (k : Nat) (s : TreeComponent α) : TreeComponent α :=
  { s with selected_index := max 0 (s.selected_index - (k : Int)) }

/-- The `pagedown` key binding with `len(w.render_info.displayed_lines) = k`. -/
def key_pagedown {α} (k : Nat) (s : TreeComponent α) : TreeComponent α :=
  { s with selected_index := min ((number_of_visible_elements s.values : Int) - 1) (s.selected_index + (k : Int)) }

/-- The navigation operations named by the spec: the four cursor keys (page
keys carry the viewport height when `render_info` is present, `none`
otherwise, in which case they do nothing) and `set_values`. -/
inductive NavOp (α : Type) where
  | up
  | down
  | pageup (info : Option Nat)
  | pagedown (info : Option Nat)
  | set (values : List (TreeElement α))

def apply_op {α} (s : TreeComponent α) : NavOp α → TreeComponent α
  | .up => key_up s
  | .down => key_down s
  | .pageup none => s
  | .pageup (some k) => key_pageup k s
  | .pagedown none => s
  | .pagedown (some k) => key_pagedown k s
  | .set vs => set_values s vs

def apply_ops {α} (s : TreeComponent α) : List (NavOp α) → TreeComponent α
  | [] => s
  | op :: ops => apply_ops (apply_op s op) ops

/-- The effect of `TreeComponent._handle_enter` on the forest: Python looks the
element up by its position in the visible traversal and flips its `expanded`
flag in place.  `toggle_go values i` returns the updated forest together with
`none` when the element at visible position `i` was found and flipped, or the
unchanged forest together with `some j` (`j` = `i` minus the number of visible
entries consumed) when position `i` lies beyond this forest. -/
def toggle_go {α} : List (TreeElement α) → Nat →
    List (TreeElement α) × Option Nat
  | [], i => ([], some i)
  | .node v cs exp :: es, 0 => (.node v cs (!exp) :: es, none)
  | .node v cs exp :: es, i + 1 =>
      if exp then
        match toggle_go cs i with
        | (cs', none) => (.node v cs' exp :: es, none)
        | (cs', some j) =>
            match toggle_go es j with
            | (es', r) => (.node v cs' exp :: es', r)
      else
        match toggle_go es i with
        | (es', r) => (.node v cs exp :: es', r)

/-- Model of `TreeComponent._handle_enter`: find the element at `_selected_index` and
flip its `expanded` flag.  When `_find_expanded_by_index` returns `None`
(negative index or index past the visible entries) Python raises
`AttributeError` on `element.expanded`; the raise is modelled as `none`. -/
def handle_enter {α} (s : TreeComponent α) : Option (TreeComponent α) :=
  if s.selected_index < 0 then none
  else
    match toggle_go s.values s.selected_index.toNat with
    | (vs, none) => some { s with values := vs }
    | (_, some _) => none

/-- The mouse event types of prompt_toolkit that can reach the handler. -/
inductive MouseEventType where
  | mouse_up
  | mouse_down
  | scroll_up
  | scroll_down
  | mouse_move
deriving DecidableEq

/-- The `mouse_handler` closure of `TreeComponent._get_text_fragments`: on
`MOUSE_UP` it assigns `self._selected_index = mouse_event.position.y` and then
calls `self._handle_enter()`.  The result pairs the component state after the
handler with a flag recording whether `_handle_enter` raised (the index
assignment persists even when the subsequent toggle raises). -/
def mouse_handler {α} (s : TreeComponent α) (event_type : MouseEventType)
    (y : Nat) : TreeComponent α × Bool :=
  if event_type = .mouse_up then
    match handle_enter { s with selected_index := (y : Int) } with
    | some s2 => (s2, false)
    | none => ({ s with selected_index := (y : Int) }, true)
  else (s, false)

/-- One iteration of the render loop of `TreeComponent._get_text_fragments`:
`level` indent fragments, the open character, a `[SetCursorPosition]` fragment
when this row is selected, the marker glyph (the code tests
`if element.children:` and then `element.expanded`), the close character, a
separating space in the default style, the payload's `render()` output, and
the row's newline.  The mouse-handler attached to every fragment afterwards
does not change the (style, text) content. -/
def row_frags {α} [Drawable α] (oc cc ds : String) (level : Nat)
    (e : TreeElement α) (selected : Bool) : List Frag :=
  List.replicate level ⟨"", "   ".toList⟩ ++
    [⟨"", oc.toList⟩] ++
    (if selected then [⟨"[SetCursorPosition]", []⟩] else []) ++
    [⟨"", [match e.children with
           | _ :: _ => if e.expanded then '-' else '+'
           | [] => ' ']⟩] ++
    [⟨"", cc.toList⟩] ++
    [⟨ds, [' ']⟩] ++
    Drawable.render e.value ++
    [⟨"", ['\n']⟩]

/-- The render loop of `TreeComponent._get_text_fragments`, walking the visible
entries with the running `current_index` compared against `_selected_index`. -/
def render_rows {α} [Drawable α] (oc cc ds : String) (sel : Int) :
    List (Nat × TreeElement α) → Nat → List Frag
  | [], _ => []
  | (level, e) :: rest, current =>
      row_frags oc cc ds level e ((current : Int) == sel) ++
        render_rows oc cc ds sel rest (current + 1)

/-- Model of `TreeComponent._get_text_fragments`: render all visible rows and pop the
final newline fragment when the result is non-empty (`List.dropLast` is the
identity on the empty list, matching the `if len(result) > 0` guard). -/
def get_text_fragments {α} [Drawable α] (s : TreeComponent α) : List Frag :=
  (render_rows s.open_character s.close_character s.default_style
      s.selected_index (traverse_visible s.values 0) 0).dropLast

/-- The concatenated character stream of a fragment list. -/
def text_of : List Frag → List Char
  | [] => []
  | f :: fs => f.text ++ text_of fs

/-- Spec-side definition: the number of rows of a rendered stream, counted as
newline-separated lines — zero for an empty stream, otherwise one more than
the number of line breaks. -/
def num_rows (frags : List Frag) : Nat :=
  if text_of frags = [] then 0 else (text_of frags).count '\n' + 1

/-- Spec-side marker rule (§4.3): `-` for an expanded node with children, `+`
for a collapsed node with children, a blank space for a node without
children. -/
def marker_spec {α} (e : TreeElement α) : Char :=
  if e.children.isEmpty = false ∧ e.expanded = true then '-'
  else if e.children.isEmpty = false ∧ e.expanded = false then '+'
  else ' '

theorem traverse_visible_eq_spec {α} (els : List (TreeElement α)) :
    ∀ level, traverse_visible els level = forest_visible_spec els level := by
  induction els using forest_ind with
  | nil => intro level; simp [traverse_visible, forest_visible_spec]
  | cons v cs exp es ihc iht =>
      intro level
      simp only [traverse_visible, forest_visible_spec, node_visible_spec]
      rw [iht level]
      cases exp with
      | false => simp
      | true => simp [ihc (level + 1)]

/-- The update `element.expanded = not element.expanded` applied to one node. -/
def flip_expanded {α} : TreeElement α → TreeElement α
  | .node v cs exp => .node v cs (!exp)

/-- Relation `FlipOneF old new` holds when `new` is `old` with the `expanded` flag of
exactly one node negated: every other node, every `value`, every `children`
sequence and the order of the forest are unchanged.  This is the functional
rendering of Python's in-place `element.expanded = not element.expanded`. -/
inductive FlipOneF {α} : List (TreeElement α) → List (TreeElement α) → Prop where
  | here (v : α) (cs : List (TreeElement α)) (exp : Bool) (es : List (TreeElement α)) :
      FlipOneF (.node v cs exp :: es) (.node v cs (!exp) :: es)
  | child (v : α) (exp : Bool) (es : List (TreeElement α)) {cs cs' : List (TreeElement α)} :
      FlipOneF cs cs' → FlipOneF (.node v cs exp :: es) (.node v cs' exp :: es)
  | tail (e : TreeElement α) {es es' : List (TreeElement α)} :
      FlipOneF es es' → FlipOneF (e :: es) (e :: es')

/-- The selection invariant the navigation code actually maintains:
`selectedIndex < max(1, numberOfVisibleNodes)` always, and `selectedIndex ≥ 0`
except that on an empty forest `down`/`pagedown` park it at `-1`. -/
def nav_inv {α} (s : TreeComponent α) : Prop :=
  s.selected_index < max 1 (number_of_visible_elements s.values : Int) ∧
    (0 ≤ s.selected_index ∨
      (number_of_visible_elements s.values = 0 ∧ s.selected_index = -1))

/-- No fragment produced by the `render()` of a visible node's payload
contains a line break (§4.3 makes the payload "the remainder of the row"). -/
def payload_newline_free {α} [Drawable α] (values : List (TreeElement α)) : Prop :=
  ∀ p ∈ traverse_visible values 0,
    ∀ f ∈ Drawable.render (Prod.snd p).value, '\n' ∉ f.text

/-- A concrete single-row payload, standing in for `JiraSummaryDrawable`. -/
structure DemoItem where
  name : List Char

instance instDrawableDemoItem : Drawable DemoItem where
  render d := [⟨"class:issue", d.name⟩]

def demo_a : DemoItem := ⟨['A']⟩

def demo_b : DemoItem := ⟨['B']⟩

/-- A component holding the empty forest. -/
def empty_component : TreeComponent DemoItem :=
  { values := [], selected_index := 0 }

/-- A component holding a single childless root. -/
def single_leaf_component : TreeComponent DemoItem :=
  { values := [TreeElement.node demo_a [] false], selected_index := 0 }

/-- A component holding one collapsed root with one child. -/
def expandable_component : TreeComponent DemoItem :=
  { values := [TreeElement.node demo_a [TreeElement.node demo_b [] false] false],
    selected_index := 0 }

/-- The starting level only shifts the depths in the traversal; the sequence of
nodes is the same. -/
theorem traverse_visible_shift {α} (els : List (TreeElement α)) :
    ∀ l, traverse_visible els l =
      (traverse_visible els 0).map (fun p => (p.1 + l, p.2)) := by
  induction els using forest_ind with
  | nil => intro l; simp [traverse_visible]
  | cons v cs exp es ihc iht =>
      intro l
      have hcomp : ∀ (x : List (Nat × TreeElement α)),
          (x.map (fun p => (p.1 + 1, p.2))).map (fun p => (p.1 + l, p.2)) =
            x.map (fun p => (p.1 + (l + 1), p.2)) := by
        intro x
        rw [List.map_map]
        apply List.map_congr_left
        intro p hp
        obtain ⟨a, b⟩ := p
        simp [Function.comp]
        omega
      cases exp with
      | false =>
          simp only [traverse_visible]
          rw [iht l]
          simp
      | true =>
          simp only [traverse_visible]
          rw [iht l, ihc (l + 1), ihc 1]
          simp [hcomp]

/-- The number of visible entries does not depend on the starting level. -/
theorem length_traverse_visible {α} (els : List (TreeElement α)) (l : Nat) :
    (traverse_visible els l).length = number_of_visible_elements els := by
  rw [traverse_visible_shift els l]
  simp [number_of_visible_elements]

/-- C1: for every forest of TreeElements, the visible-node traversal yields
exactly the depth-first pre-order sequence of (depth, node) pairs in which the
depth starts at the given level (0 at the roots) and increases by 1 per
nesting level, a node's children are visited if and only if its `expanded`
flag is true, and a collapsed subtree contributes exactly one entry no matter
how many descendants it has. -/
theorem C1_traverse_visible_preorder {α} :
    (∀ (els : List (TreeElement α)) (level : Nat),
        traverse_visible els level = forest_visible_spec els level) ∧
    (∀ (v : α) (cs : List (TreeElement α)) (level : Nat),
        traverse_visible [TreeElement.node v cs false] level =
          [(level, TreeElement.node v cs false)]) := by
  constructor
  · exact fun els level => traverse_visible_eq_spec els level
  · intro v cs level
    simp [traverse_visible]

theorem nve_cons {α} (v : α) (cs es : List (TreeElement α)) (exp : Bool) :
    number_of_visible_elements (TreeElement.node v cs exp :: es) =
      1 + (if exp then number_of_visible_elements cs else 0) +
        number_of_visible_elements es := by
  simp only [number_of_visible_elements, traverse_visible, List.length_cons,
    List.length_append]
  cases exp with
  | false => simp; omega
  | true =>
      simp only [if_true]
      rw [length_traverse_visible cs 1]
      simp [number_of_visible_elements]
      omega

theorem find_go_lt {α} :
    ∀ (entries : List (Nat × TreeElement α)) (i idx : Int),
      i < idx → find_go entries i idx = none := by
  intro entries
  induction entries with
  | nil => intro i idx h; simp [find_go]
  | cons p rest ih =>
      intro i idx h
      obtain ⟨d, e⟩ := p
      simp only [find_go]
      rw [if_neg (by omega)]
      exact ih i (idx + 1) (by omega)

theorem find_go_nat {α} :
    ∀ (entries : List (Nat × TreeElement α)) (n : Nat) (base : Int),
      find_go entries (base + (n : Int)) base = (entries[n]?).map Prod.snd := by
  intro entries
  induction entries with
  | nil => intro n base; simp [find_go]
  | cons p rest ih =>
      intro n base
      obtain ⟨d, e⟩ := p
      cases n with
      | zero => simp [find_go]
      | succ m =>
          simp only [find_go]
          rw [if_neg (by omega)]
          simp only [List.getElem?_cons_succ]
          rw [show base + ((m + 1 : Nat) : Int) = base + 1 + (m : Int) by push_cast; ring]
          exact ih m (base + 1)

/-- Lookup `_find_expanded_by_index` at a non-negative index returns the node part of
the traversal entry at that position. -/
theorem find_expanded_eq {α} (values : List (TreeElement α)) (n : Nat) :
    find_expanded_by_index values (n : Int) =
      ((traverse_visible values 0)[n]?).map Prod.snd := by
  have h := find_go_nat (traverse_visible values 0) n 0
  simpa [find_expanded_by_index] using h

/-- Lookup `_find_expanded_by_index` at a negative index falls through and returns
`None`. -/
theorem find_expanded_neg {α} (values : List (TreeElement α)) (m : Nat) :
    find_expanded_by_index values (Int.negSucc m) = none :=
  find_go_lt (traverse_visible values 0) (Int.negSucc m) 0 (Int.negSucc_lt_zero m)

/-- Past the visible entries of a forest the toggle walk leaves the forest
unchanged and reports the remaining index. -/
theorem toggle_not_found {α} :
    ∀ (ls : List (TreeElement α)) (i : Nat),
      number_of_visible_elements ls ≤ i →
      toggle_go ls i = (ls, some (i - number_of_visible_elements ls)) := by
  intro ls
  induction ls using forest_ind with
  | nil =>
      intro i h
      simp [toggle_go, number_of_visible_elements, traverse_visible]
  | cons v cs exp es ihc iht =>
      intro i h
      rw [nve_cons] at h ⊢
      cases i with
      | zero => omega
      | succ i' =>
          cases exp with
          | true =>
              simp only [if_true] at h ⊢
              have h1 : toggle_go cs i' =
                  (cs, some (i' - number_of_visible_elements cs)) :=
                ihc i' (by omega)
              have h2 : toggle_go es (i' - number_of_visible_elements cs) =
                  (es, some (i' - number_of_visible_elements cs -
                    number_of_visible_elements es)) :=
                iht _ (by omega)
              simp [toggle_go, h1, h2]
              omega
          | false =>
              simp only [Bool.false_eq_true, if_false] at h ⊢
              have h1 : toggle_go es i' =
                  (es, some (i' - number_of_visible_elements es)) :=
                iht i' (by omega)
              simp [toggle_go, h1]
              omega

/-- Within the visible entries the toggle walk reports success. -/
theorem toggle_found_none {α} :
    ∀ (ls : List (TreeElement α)) (i : Nat),
      i < number_of_visible_elements ls → (toggle_go ls i).2 = none := by
  intro ls
  induction ls using forest_ind with
  | nil =>
      intro i h
      simp [number_of_visible_elements, traverse_visible] at h
  | cons v cs exp es ihc iht =>
      intro i h
      rw [nve_cons] at h
      cases i with
      | zero => simp [toggle_go]
      | succ i' =>
          cases exp with
          | true =>
              simp only [if_true] at h
              by_cases hc : i' < number_of_visible_elements cs
              · rcases h1 : toggle_go cs i' with ⟨cs', r⟩
                have hr : r = none := by
                  have hx := ihc i' hc
                  rw [h1] at hx
                  exact hx
                subst hr
                simp [toggle_go, h1]
              · have h1 : toggle_go cs i' =
                    (cs, some (i' - number_of_visible_elements cs)) :=
                  toggle_not_found cs i' (by omega)
                rcases h2 : toggle_go es (i' - number_of_visible_elements cs)
                  with ⟨es', r⟩
                have hr : r = none := by
                  have hx := iht (i' - number_of_visible_elements cs) (by omega)
                  rw [h2] at hx
                  exact hx
                subst hr
                simp [toggle_go, h1, h2]
          | false =>
              simp only [Bool.false_eq_true, if_false] at h
              rcases h1 : toggle_go es i' with ⟨es', r⟩
              have hr : r = none := by
                have hx := iht i' (by omega)
                rw [h1] at hx
                exact hx
              subst hr
              simp [toggle_go, h1]

/-- Toggling the same visible position twice restores the forest exactly. -/
theorem toggle_toggle {α} :
    ∀ (ls : List (TreeElement α)) (i : Nat),
      i < number_of_visible_elements ls →
      toggle_go (toggle_go ls i).1 i = (ls, none) := by
  intro ls
  induction ls using forest_ind with
  | nil =>
      intro i h
      simp [number_of_visible_elements, traverse_visible] at h
  | cons v cs exp es ihc iht =>
      intro i h
      rw [nve_cons] at h
      cases i with
      | zero => simp [toggle_go]
      | succ i' =>
          cases exp with
          | true =>
              simp only [if_true] at h
              by_cases hc : i' < number_of_visible_elements cs
              · rcases h1 : toggle_go cs i' with ⟨cs', r⟩
                have hr : r = none := by
                  have hx := toggle_found_none cs i' hc
                  rw [h1] at hx
                  exact hx
                subst hr
                have hback : toggle_go cs' i' = (cs, none) := by
                  have hx := ihc i' hc
                  rw [h1] at hx
                  exact hx
                simp [toggle_go, h1, hback]
              · have h1 : toggle_go cs i' =
                    (cs, some (i' - number_of_visible_elements cs)) :=
                  toggle_not_found cs i' (by omega)
                rcases h2 : toggle_go es (i' - number_of_visible_elements cs)
                  with ⟨es', r⟩
                have hr : r = none := by
                  have hx := toggle_found_none es
                    (i' - number_of_visible_elements cs) (by omega)
                  rw [h2] at hx
                  exact hx
                subst hr
                have hback : toggle_go es' (i' - number_of_visible_elements cs) =
                    (es, none) := by
                  have hx := iht (i' - number_of_visible_elements cs) (by omega)
                  rw [h2] at hx
                  exact hx
                simp [toggle_go, h1, h2, hback]
          | false =>
              simp only [Bool.false_eq_true, if_false] at h
              rcases h1 : toggle_go es i' with ⟨es', r⟩
              have hr : r = none := by
                have hx := toggle_found_none es i' (by omega)
                rw [h1] at hx
                exact hx
              subst hr
              have hback : toggle_go es' i' = (es, none) := by
                have hx := iht i' (by omega)
                rw [h1] at hx
                exact hx
              simp [toggle_go, h1, hback]

/-- The toggle walk changes exactly one `expanded` flag. -/
theorem toggle_flip_one {α} :
    ∀ (ls : List (TreeElement α)) (i : Nat),
      i < number_of_visible_elements ls → FlipOneF ls (toggle_go ls i).1 := by
  intro ls
  induction ls using forest_ind with
  | nil =>
      intro i h
      simp [number_of_visible_elements, traverse_visible] at h
  | cons v cs exp es ihc iht =>
      intro i h
      rw [nve_cons] at h
      cases i with
      | zero =>
          simp only [toggle_go]
          exact FlipOneF.here v cs exp es
      | succ i' =>
          cases exp with
          | true =>
              simp only [if_true] at h
              by_cases hc : i' < number_of_visible_elements cs
              · rcases h1 : toggle_go cs i' with ⟨cs', r⟩
                have hr : r = none := by
                  have hx := toggle_found_none cs i' hc
                  rw [h1] at hx
                  exact hx
                subst hr
                have hflip : FlipOneF cs cs' := by
                  have hx := ihc i' hc
                  rw [h1] at hx
                  exact hx
                simp [toggle_go, h1]
                exact FlipOneF.child v true es hflip
              · have h1 : toggle_go cs i' =
                    (cs, some (i' - number_of_visible_elements cs)) :=
                  toggle_not_found cs i' (by omega)
                rcases h2 : toggle_go es (i' - number_of_visible_elements cs)
                  with ⟨es', r⟩
                have hflip : FlipOneF es es' := by
                  have hx := iht (i' - number_of_visible_elements cs) (by omega)
                  rw [h2] at hx
                  exact hx
                simp [toggle_go, h1, h2]
                exact FlipOneF.tail _ hflip
          | false =>
              simp only [Bool.false_eq_true, if_false] at h
              rcases h1 : toggle_go es i' with ⟨es', r⟩
              have hflip : FlipOneF es es' := by
                have hx := iht i' (by omega)
                rw [h1] at hx
                exact hx
              simp [toggle_go, h1]
              exact FlipOneF.tail _ hflip

theorem traverse_visible_cons {α} (v : α) (cs es : List (TreeElement α))
    (exp : Bool) (l : Nat) :
    traverse_visible (TreeElement.node v cs exp :: es) l =
      (l, TreeElement.node v cs exp) ::
        ((if exp then traverse_visible cs (l + 1) else []) ++
          traverse_visible es l) := by
  simp [traverse_visible]

/-- The traversal entry at the toggled position keeps its depth and its node
keeps its value and children; only its `expanded` flag is negated. -/
theorem toggle_get {α} :
    ∀ (ls : List (TreeElement α)) (i : Nat),
      i < number_of_visible_elements ls →
      ∀ (l d : Nat) (e : TreeElement α),
        (traverse_visible ls l)[i]? = some (d, e) →
        (traverse_visible (toggle_go ls i).1 l)[i]? =
          some (d, flip_expanded e) := by
  intro ls
  induction ls using forest_ind with
  | nil =>
      intro i h
      simp [number_of_visible_elements, traverse_visible] at h
  | cons v cs exp es ihc iht =>
      intro i h l d e hget
      rw [nve_cons] at h
      cases i with
      | zero =>
          rw [traverse_visible_cons, List.getElem?_cons_zero] at hget
          simp only [Option.some.injEq, Prod.mk.injEq] at hget
          obtain ⟨hd, he⟩ := hget
          subst hd
          subst he
          simp [toggle_go, traverse_visible_cons, flip_expanded]
      | succ i' =>
          cases exp with
          | true =>
              simp only [if_true] at h
              rw [traverse_visible_cons, List.getElem?_cons_succ] at hget
              simp only [if_true] at hget
              rw [List.getElem?_append] at hget
              by_cases hc : i' < number_of_visible_elements cs
              · rw [if_pos (by rw [length_traverse_visible]; exact hc)] at hget
                rcases h1 : toggle_go cs i' with ⟨cs', r⟩
                have hr : r = none := by
                  have hx := toggle_found_none cs i' hc
                  rw [h1] at hx
                  exact hx
                subst hr
                have hnew := ihc i' hc (l + 1) d e hget
                rw [h1] at hnew
                have hlen : i' < (traverse_visible cs' (l + 1)).length :=
                  (List.getElem?_eq_some.mp hnew).1
                have htg : (toggle_go (TreeElement.node v cs true :: es)
                    (i' + 1)).1 = TreeElement.node v cs' true :: es := by
                  simp [toggle_go, h1]
                rw [htg, traverse_visible_cons, List.getElem?_cons_succ]
                simp only [if_true]
                rw [List.getElem?_append, if_pos hlen]
                exact hnew
              · rw [if_neg (by rw [length_traverse_visible]; exact hc),
                  length_traverse_visible] at hget
                have h1 : toggle_go cs i' =
                    (cs, some (i' - number_of_visible_elements cs)) :=
                  toggle_not_found cs i' (by omega)
                rcases h2 : toggle_go es (i' - number_of_visible_elements cs)
                  with ⟨es', r⟩
                have hnew := iht (i' - number_of_visible_elements cs) (by omega)
                  l d e hget
                rw [h2] at hnew
                have htg : (toggle_go (TreeElement.node v cs true :: es)
                    (i' + 1)).1 = TreeElement.node v cs true :: es' := by
                  simp [toggle_go, h1, h2]
                rw [htg, traverse_visible_cons, List.getElem?_cons_succ]
                simp only [if_true]
                rw [List.getElem?_append,
                  if_neg (by rw [length_traverse_visible]; exact hc),
                  length_traverse_visible]
                exact hnew
          | false =>
              simp only [Bool.false_eq_true, if_false] at h
              rw [traverse_visible_cons, List.getElem?_cons_succ] at hget
              simp only [Bool.false_eq_true, if_false, List.nil_append] at hget
              rcases h1 : toggle_go es i' with ⟨es', r⟩
              have hnew := iht i' (by omega) l d e hget
              rw [h1] at hnew
              have htg : (toggle_go (TreeElement.node v cs false :: es)
                  (i' + 1)).1 = TreeElement.node v cs false :: es' := by
                simp [toggle_go, h1]
              rw [htg, traverse_visible_cons, List.getElem?_cons_succ]
              simp only [Bool.false_eq_true, if_false, List.nil_append]
              exact hnew

/-- Every single navigation operation preserves the selection invariant. -/
theorem nav_inv_step {α} (s : TreeComponent α) (op : NavOp α) (h : nav_inv s) :
    nav_inv (apply_op s op) := by
  cases op with
  | up =>
      unfold nav_inv at h ⊢
      simp only [apply_op, key_up]
      omega
  | down =>
      unfold nav_inv at h ⊢
      simp only [apply_op, key_down]
      omega
  | pageup info =>
      cases info with
      | none => exact h
      | some k =>
          unfold nav_inv at h ⊢
          simp only [apply_op, key_pageup]
          omega
  | pagedown info =>
      cases info with
      | none => exact h
      | some k =>
          unfold nav_inv at h ⊢
          simp only [apply_op, key_pagedown]
          omega
  | set vs =>
      unfold nav_inv
      simp only [apply_op, set_values]
      omega

theorem nav_inv_apply_ops {α} :
    ∀ (ops : List (NavOp α)) (s : TreeComponent α),
      nav_inv s → nav_inv (apply_ops s ops) := by
  intro ops
  induction ops with
  | nil => intro s hs; exact hs
  | cons op rest ih => intro s hs; exact ih _ (nav_inv_step s op hs)

/-- C2 (amended): starting from `set_values`, after every sequence of the
navigation operations moveUp, moveDown, pageUp, pageDown and setValues the
component satisfies `selectedIndex < max(1, numberOfVisibleNodes)`, and
`selectedIndex ≥ 0` except that on an empty forest moveDown/pageDown park it
at `-1` (never lower). -/
theorem C2_selection_invariant {α} (c : TreeComponent α)
    (vs : List (TreeElement α)) (ops : List (NavOp α)) :
    nav_inv (apply_ops (set_values c vs) ops) := by
  apply nav_inv_apply_ops
  unfold nav_inv
  simp only [set_values]
  omega

/-- C2 counterexample: on the empty forest, a single moveDown sets
`selectedIndex` to `min(0 - 1, 0 + 1) = -1`, violating the claimed
`0 ≤ selectedIndex`. -/
theorem C2_counterexample :
    ¬ 0 ≤ (apply_ops (set_values empty_component []) [NavOp.down]).selected_index := by
  simp [apply_ops, apply_op, key_down, set_values, empty_component,
    number_of_visible_elements, traverse_visible]

/-- C3 (code bug, evaluated at the failing input): on the empty forest the
rendered stream is empty and `get_selected_element` returns the "no
selection" result `none`, but `_handle_enter` (toggleSelected, bound to
enter/space/right) finds no element and dereferences `None`, raising
`AttributeError` — modelled by `handle_enter` returning `none`. -/
theorem C3_empty_forest :
    get_text_fragments empty_component = [] ∧
    get_selected_element empty_component = none ∧
    handle_enter empty_component = none := by
  refine ⟨?_, ?_, ?_⟩
  · simp [get_text_fragments, empty_component, traverse_visible, render_rows]
  · simp [get_selected_element, empty_component, find_expanded_by_index,
      traverse_visible, find_go]
  · simp [handle_enter, empty_component, toggle_go]

/-- C8: `set_values` replaces the forest wholesale and resets the selection
index to 0, whatever the previous state was. -/
theorem C8_set_values_resets {α} (s : TreeComponent α)
    (vs : List (TreeElement α)) :
    (set_values s vs).values = vs ∧ (set_values s vs).selected_index = 0 :=
  ⟨rfl, rfl⟩

/-- A successful toggle walk means the index was within the visible range. -/
theorem toggle_none_lt {α} (ls : List (TreeElement α)) (n : Nat)
    (h : (toggle_go ls n).2 = none) : n < number_of_visible_elements ls := by
  by_contra hn
  rw [toggle_not_found ls n (by omega)] at h
  simp at h

/-- Running `_handle_enter` with an in-range selection flips the selected node's flag
and succeeds. -/
theorem handle_enter_found {α} (s : TreeComponent α) (n : Nat)
    (hsi : s.selected_index = (n : Int))
    (hlt : n < number_of_visible_elements s.values) :
    handle_enter s = some { s with values := (toggle_go s.values n).1 } := by
  unfold handle_enter
  rw [if_neg (by omega)]
  have hpair : toggle_go s.values s.selected_index.toNat =
      ((toggle_go s.values n).1, none) := by
    rw [show s.selected_index.toNat = n by omega]
    have h2 := toggle_found_none s.values n hlt
    calc toggle_go s.values n
        = ((toggle_go s.values n).1, (toggle_go s.values n).2) := rfl
      _ = ((toggle_go s.values n).1, none) := by rw [h2]
  rw [hpair]

/-- Running `_handle_enter` with a selection at or past the visible entries finds no
element and raises (modelled as `none`). -/
theorem handle_enter_miss {α} (s : TreeComponent α) (n : Nat)
    (hsi : s.selected_index = (n : Int))
    (hge : number_of_visible_elements s.values ≤ n) :
    handle_enter s = none := by
  unfold handle_enter
  rw [if_neg (by omega)]
  rw [show s.selected_index.toNat = n by omega]
  rw [toggle_not_found s.values n hge]

/-- C4 (amended): on a MOUSE_UP event the handler stores the raw row offset in
`selectedIndex` without clamping and then invokes toggleSelected; within the
visible range this is the combined select-and-activate operation, outside it
the toggle raises while the unclamped offset persists. -/
theorem C4_mouse_raw_offset {α} (s : TreeComponent α) (y : Nat) :
    mouse_handler s .mouse_up y =
      if y < number_of_visible_elements s.values then
        ({ s with values := (toggle_go s.values y).1, selected_index := (y : Int) }, false)
      else ({ s with selected_index := (y : Int) }, true) := by
  by_cases hy : y < number_of_visible_elements s.values
  · rw [if_pos hy]
    unfold mouse_handler
    rw [if_pos rfl]
    rw [handle_enter_found { s with selected_index := (y : Int) } y rfl hy]
  · rw [if_neg hy]
    unfold mouse_handler
    rw [if_pos rfl]
    rw [handle_enter_miss { s with selected_index := (y : Int) } y rfl
      (show number_of_visible_elements s.values ≤ y by omega)]

/-- C4 counterexample: clicking row 5 of a single-row component leaves
`selectedIndex = 5`, outside the visible range `[0, 1)`, and the combined
toggle raises — the offset is not clamped. -/
theorem C4_counterexample :
    (mouse_handler single_leaf_component .mouse_up 5).1.selected_index = 5 ∧
    (mouse_handler single_leaf_component .mouse_up 5).2 = true ∧
    number_of_visible_elements single_leaf_component.values = 1 := by
  have hn : number_of_visible_elements single_leaf_component.values = 1 := by
    simp [single_leaf_component, number_of_visible_elements, traverse_visible]
  have e1 : handle_enter
      { single_leaf_component with selected_index := ((5 : Nat) : Int) } =
        none :=
    handle_enter_miss _ 5 rfl
      (show number_of_visible_elements single_leaf_component.values ≤ 5 by
        rw [hn]; omega)
  refine ⟨?_, ?_, hn⟩
  · unfold mouse_handler
    rw [if_pos rfl, e1]
    rfl
  · unfold mouse_handler
    rw [if_pos rfl, e1]

/-- C5: with a non-empty visible sequence and `selectedIndex` in range,
toggleSelected twice restores the forest, hence the visible sequence has
exactly its original content and length. -/
theorem C5_toggle_round_trip {α} (s : TreeComponent α)
    (h0 : 0 ≤ s.selected_index)
    (h1 : s.selected_index < (number_of_visible_elements s.values : Int)) :
    ∃ s1 s2, handle_enter s = some s1 ∧ handle_enter s1 = some s2 ∧
      traverse_visible s2.values 0 = traverse_visible s.values 0 ∧
      s2 = s := by
  obtain ⟨n, hn⟩ : ∃ n : Nat, s.selected_index = (n : Int) :=
    ⟨s.selected_index.toNat, by omega⟩
  have hlt : n < number_of_visible_elements s.values := by omega
  have e1 := handle_enter_found s n hn hlt
  have htt := toggle_toggle s.values n hlt
  have hlt1 : n <
      number_of_visible_elements (toggle_go s.values n).1 :=
    toggle_none_lt _ n (by rw [htt])
  have e2 : handle_enter { s with values := (toggle_go s.values n).1 } =
      some { s with values := s.values } := by
    have hx := handle_enter_found
      { s with values := (toggle_go s.values n).1 } n hn hlt1
    rw [hx]
    congr 1
    rw [show (toggle_go (toggle_go s.values n).1 n).1 = s.values from
      by rw [htt]]
  exact ⟨_, _, e1, e2, rfl, rfl⟩

/-- C5 witness at a concrete component. -/
theorem C5_witness :
    ∃ s1 s2, handle_enter expandable_component = some s1 ∧
      handle_enter s1 = some s2 ∧
      traverse_visible s2.values 0 =
        traverse_visible expandable_component.values 0 ∧
      s2 = expandable_component :=
  C5_toggle_round_trip expandable_component
    (by simp [expandable_component])
    (by simp [expandable_component, number_of_visible_elements,
      traverse_visible])

/-- C10: when a node is selected, toggleSelected succeeds, leaves
`selectedIndex` unchanged, changes exactly one `expanded` flag in the forest
(every other node, every value, every children sequence and the order are
untouched), and `get_selected_element` afterwards returns the selected node
with its flag negated. -/
theorem C10_toggle_frame {α} (s : TreeComponent α) (e : TreeElement α)
    (h : get_selected_element s = some e) :
    ∃ s', handle_enter s = some s' ∧
      s'.selected_index = s.selected_index ∧
      FlipOneF s.values s'.values ∧
      get_selected_element s' = some (flip_expanded e) := by
  obtain ⟨n, hn⟩ : ∃ n : Nat, s.selected_index = (n : Int) := by
    cases hsi : s.selected_index with
    | ofNat m => exact ⟨m, rfl⟩
    | negSucc m =>
        rw [get_selected_element, hsi, find_expanded_neg] at h
        cases h
  rw [get_selected_element, hn, find_expanded_eq] at h
  rcases Option.map_eq_some'.mp h with ⟨⟨d, e0⟩, hde, hsnd⟩
  have he0 : e0 = e := hsnd
  subst he0
  have hlt : n < number_of_visible_elements s.values := by
    have hx := (List.getElem?_eq_some.mp hde).1
    simpa [number_of_visible_elements] using hx
  have e1 := handle_enter_found s n hn hlt
  have hget := toggle_get s.values n hlt 0 d e0 hde
  have hflip := toggle_flip_one s.values n hlt
  refine ⟨_, e1, rfl, hflip, ?_⟩
  rw [get_selected_element]
  rw [show ({ s with values := (toggle_go s.values n).1 } :
      TreeComponent α).selected_index = (n : Int) from hn]
  rw [find_expanded_eq, hget]
  rfl

/-- C10 witness at a concrete component. -/
theorem C10_witness :
    ∃ s', handle_enter expandable_component = some s' ∧
      s'.selected_index = expandable_component.selected_index ∧
      FlipOneF expandable_component.values s'.values ∧
      get_selected_element s' = some (flip_expanded
        (TreeElement.node demo_a [TreeElement.node demo_b [] false] false)) :=
  C10_toggle_frame expandable_component
    (TreeElement.node demo_a [TreeElement.node demo_b [] false] false)
    (by simp [get_selected_element, expandable_component,
      find_expanded_by_index, traverse_visible, find_go])

theorem text_of_append (A B : List Frag) :
    text_of (A ++ B) = text_of A ++ text_of B := by
  induction A with
  | nil => simp [text_of]
  | cons f fs ih => simp [text_of, ih]

theorem text_of_not_mem {A : List Frag} {c : Char}
    (h : ∀ f ∈ A, c ∉ f.text) : c ∉ text_of A := by
  induction A with
  | nil => simp [text_of]
  | cons f fs ih =>
      simp only [text_of, List.mem_append]
      rintro (hin | hin)
      · exact h f (List.mem_cons_self f fs) hin
      · exact ih (fun g hg => h g (List.mem_cons_of_mem f hg)) hin

theorem getLast?_ne_of_not_mem {l : List Char} {a : Char} (h : a ∉ l) :
    l.getLast? ≠ some a := by
  intro hc
  rcases List.mem_getLast?_eq_getLast (show a ∈ l.getLast? from hc)
    with ⟨hne, heq⟩
  exact h (heq ▸ List.getLast_mem hne)

/-- A rendered row is a newline-free body followed by the row's newline
fragment, and its body text is non-empty. -/
theorem row_frags_split {α} [Drawable α] (oc cc ds : String) (level : Nat)
    (e : TreeElement α) (selb : Bool)
    (hoc : '\n' ∉ oc.toList) (hcc : '\n' ∉ cc.toList)
    (hp : ∀ f ∈ Drawable.render e.value, '\n' ∉ f.text) :
    ∃ B, row_frags oc cc ds level e selb = B ++ [⟨"", ['\n']⟩] ∧
      '\n' ∉ text_of B ∧ text_of B ≠ [] := by
  refine ⟨List.replicate level ⟨"", "   ".toList⟩ ++ [⟨"", oc.toList⟩] ++
    (if selb then [⟨"[SetCursorPosition]", []⟩] else []) ++
    [⟨"", [match e.children with
           | _ :: _ => if e.expanded then '-' else '+'
           | [] => ' ']⟩] ++
    [⟨"", cc.toList⟩] ++ [⟨ds, [' ']⟩] ++ Drawable.render e.value, ?_, ?_, ?_⟩
  · simp [row_frags, List.append_assoc]
  · apply text_of_not_mem
    intro f hf
    simp only [List.append_assoc, List.mem_append, List.mem_singleton] at hf
    rcases hf with hf | hf | hf | hf | hf | hf | hf
    · rw [List.eq_of_mem_replicate hf]
      decide
    · subst hf; exact hoc
    · rcases selb with _ | _
      · simp at hf
      · simp at hf
        subst hf; simp
    · subst hf
      rcases e with ⟨v, cs, exp⟩
      cases cs <;> cases exp <;>
        simp [TreeElement.children, TreeElement.expanded]
    · subst hf; exact hcc
    · subst hf; simp
    · exact hp f hf
  · intro hcontra
    rw [text_of_append, text_of_append, text_of_append, text_of_append,
      text_of_append, text_of_append] at hcontra
    rcases List.append_eq_nil.mp hcontra with ⟨h1, h2⟩
    rcases List.append_eq_nil.mp h1 with ⟨h3, h4⟩
    rcases List.append_eq_nil.mp h3 with ⟨h5, h6⟩
    rcases List.append_eq_nil.mp h5 with ⟨h7, h8⟩
    rcases List.append_eq_nil.mp h7 with ⟨h9, h10⟩
    simp [text_of] at h4

/-- The rendered stream of a non-empty visible sequence is a body followed by
one final newline fragment; the body holds one newline per row but the last,
is non-empty, and does not end in a newline. -/
theorem render_rows_structure {α} [Drawable α] (oc cc ds : String) (sel : Int)
    (hoc : '\n' ∉ oc.toList) (hcc : '\n' ∉ cc.toList) :
    ∀ (rows : List (Nat × TreeElement α)) (k : Nat),
      rows ≠ [] →
      (∀ p ∈ rows, ∀ f ∈ Drawable.render (Prod.snd p).value, '\n' ∉ f.text) →
      ∃ B, render_rows oc cc ds sel rows k = B ++ [⟨"", ['\n']⟩] ∧
        (text_of B).count '\n' = rows.length - 1 ∧
        text_of B ≠ [] ∧
        (text_of B).getLast? ≠ some '\n' := by
  intro rows
  induction rows with
  | nil => intro k hne hp; exact absurd rfl hne
  | cons r rest ih =>
      intro k hne hp
      obtain ⟨level, e⟩ := r
      have hpr : ∀ f ∈ Drawable.render e.value, '\n' ∉ f.text := by
        intro f hf
        exact hp (level, e) (List.mem_cons_self _ _) f hf
      obtain ⟨Br, hBr, hBrnl, hBrne⟩ :=
        row_frags_split oc cc ds level e ((k : Int) == sel) hoc hcc hpr
      cases rest with
      | nil =>
          refine ⟨Br, ?_, ?_, hBrne, getLast?_ne_of_not_mem hBrnl⟩
          · simp [render_rows, hBr]
          · rw [List.count_eq_zero.mpr hBrnl]
            simp
      | cons r2 rest2 =>
          obtain ⟨B2, hB2, hcount2, hne2, hlast2⟩ :=
            ih (k + 1) (by simp)
              (fun p hmem f hf => hp p (List.mem_cons_of_mem _ hmem) f hf)
          refine ⟨row_frags oc cc ds level e ((k : Int) == sel) ++ B2,
            ?_, ?_, ?_, ?_⟩
          · rw [show render_rows oc cc ds sel ((level, e) :: r2 :: rest2) k =
                row_frags oc cc ds level e ((k : Int) == sel) ++
                  render_rows oc cc ds sel (r2 :: rest2) (k + 1) from
                by simp [render_rows]]
            rw [hB2, ← List.append_assoc]
          · rw [text_of_append, hBr, text_of_append, List.count_append,
              List.count_append, List.count_eq_zero.mpr hBrnl, hcount2]
            simp [text_of]
            omega
          · rw [text_of_append]
            intro hc
            exact hne2 (List.append_eq_nil.mp hc).2
          · rw [text_of_append, List.getLast?_append_of_ne_nil _ hne2]
            exact hlast2

/-- C6: for every forest (whose payload rows are newline-free, per §4.3 the
payload is "the remainder of the row"), `numberOfVisibleNodes` equals the
length of the visible traversal and equals the number of newline-separated
rows of the rendered stream. -/
theorem C6_visible_count_rows {α} [Drawable α] (s : TreeComponent α)
    (hoc : '\n' ∉ s.open_character.toList)
    (hcc : '\n' ∉ s.close_character.toList)
    (hp : payload_newline_free s.values) :
    number_of_visible_elements s.values =
      (traverse_visible s.values 0).length ∧
    num_rows (get_text_fragments s) = number_of_visible_elements s.values := by
  refine ⟨rfl, ?_⟩
  rcases hrows : traverse_visible s.values 0 with _ | ⟨r, rest⟩
  · rw [get_text_fragments, hrows]
    simp [render_rows, num_rows, text_of, number_of_visible_elements, hrows]
  · have hpay : ∀ p ∈ r :: rest,
        ∀ f ∈ Drawable.render (Prod.snd p).value, '\n' ∉ f.text := by
      rw [← hrows]
      exact hp
    obtain ⟨B, hB, hcount, hne, hlast⟩ :=
      render_rows_structure s.open_character s.close_character
        s.default_style s.selected_index hoc hcc (r :: rest) 0 (by simp) hpay
    rw [get_text_fragments, hrows, hB]
    rw [show (B ++ [(⟨"", ['\n']⟩ : Frag)]).dropLast = B from by simp]
    simp only [num_rows, if_neg hne]
    rw [hcount, number_of_visible_elements, hrows]
    simp

/-- C6 witness at a concrete component. -/
theorem C6_witness :
    number_of_visible_elements expandable_component.values =
      (traverse_visible expandable_component.values 0).length ∧
    num_rows (get_text_fragments expandable_component) =
      number_of_visible_elements expandable_component.values :=
  C6_visible_count_rows expandable_component (by decide) (by decide) (by
    intro p hmem f hf
    simp [expandable_component, traverse_visible] at hmem
    subst hmem
    simp [instDrawableDemoItem, demo_a, TreeElement.value] at hf
    subst hf
    decide)

/-- C7: in every rendered row the glyph between the open and close characters
is `-` for an expanded node with children, `+` for a collapsed node with
children and a blank for a childless node regardless of its `expanded` flag,
and it is preceded by `depth` copies of the fixed three-space indent unit. -/
theorem C7_marker_and_indent {α} [Drawable α] (oc cc ds : String)
    (level : Nat) (e : TreeElement α) (selected : Bool) :
    row_frags oc cc ds level e selected =
      List.replicate level ⟨"", "   ".toList⟩ ++ [⟨"", oc.toList⟩] ++
        (if selected then [⟨"[SetCursorPosition]", []⟩] else []) ++
        [⟨"", [marker_spec e]⟩] ++ [⟨"", cc.toList⟩] ++ [⟨ds, [' ']⟩] ++
        Drawable.render e.value ++ [⟨"", ['\n']⟩] := by
  rcases e with ⟨v, cs, exp⟩
  cases cs <;> cases exp <;>
    simp [row_frags, marker_spec, TreeElement.children, TreeElement.expanded]

/-- C9: rendering the empty forest yields the empty stream; in general the
stream holds one line break per row except after the last and never ends in a
newline (payload rows newline-free as in §4.3). -/
theorem C9_no_trailing_newline {α} [Drawable α] (s : TreeComponent α)
    (hoc : '\n' ∉ s.open_character.toList)
    (hcc : '\n' ∉ s.close_character.toList)
    (hp : payload_newline_free s.values) :
    (s.values = [] → get_text_fragments s = []) ∧
    (text_of (get_text_fragments s)).count '\n' =
      number_of_visible_elements s.values - 1 ∧
    (text_of (get_text_fragments s)).getLast? ≠ some '\n' := by
  rcases hrows : traverse_visible s.values 0 with _ | ⟨r, rest⟩
  · refine ⟨?_, ?_, ?_⟩
    · intro hv
      rw [get_text_fragments, hrows]
      simp [render_rows]
    · rw [get_text_fragments, hrows]
      simp [render_rows, text_of, number_of_visible_elements, hrows]
    · rw [get_text_fragments, hrows]
      simp [render_rows, text_of]
  · have hpay : ∀ p ∈ r :: rest,
        ∀ f ∈ Drawable.render (Prod.snd p).value, '\n' ∉ f.text := by
      rw [← hrows]
      exact hp
    obtain ⟨B, hB, hcount, hne, hlast⟩ :=
      render_rows_structure s.open_character s.close_character
        s.default_style s.selected_index hoc hcc (r :: rest) 0 (by simp) hpay
    refine ⟨?_, ?_, ?_⟩
    · intro hv
      rw [hv] at hrows
      simp [traverse_visible] at hrows
    · rw [get_text_fragments, hrows, hB,
        show (B ++ [(⟨"", ['\n']⟩ : Frag)]).dropLast = B from by simp,
        hcount, number_of_visible_elements, hrows]
    · rw [get_text_fragments, hrows, hB,
        show (B ++ [(⟨"", ['\n']⟩ : Frag)]).dropLast = B from by simp]
      exact hlast

/-- C9 witness at a concrete component. -/
theorem C9_witness :
    (expandable_component.values = [] →
      get_text_fragments expandable_component = []) ∧
    (text_of (get_text_fragments expandable_component)).count '\n' =
      number_of_visible_elements expandable_component.values - 1 ∧
    (text_of (get_text_fragments expandable_component)).getLast? ≠
      some '\n' :=
  C9_no_trailing_newline expandable_component (by decide) (by decide) (by
    intro p hmem f hf
    simp [expandable_component, traverse_visible] at hmem
    subst hmem
    simp [instDrawableDemoItem, demo_a, TreeElement.value] at hf
    subst hf
    decide)

end Pyjira
